import Mathlib

/-!
Shallow embedding of `useful/consistent_hash.py` (class `ConsistentHashRing`)
and `useful/filelock.py` (class `FileLock`) from the `tuttle/python-useful`
repository, together with theorems settling the specification's claims.

Conventions used throughout:

* Python `int` hash values are `Nat` (the md5-based values are nonnegative
  and unbounded Python integers, so no modular wrap-around is involved).
* `ConsistentHashRing.hash` calls the external library `hashlib.md5`; the
  hash is therefore a parameter `H : String → Nat` of the embedding, and
  bucket identifiers and keys are taken in their string form (the `'%s'` /
  `str(key)` conversions of the source).
* A Python dict is an insertion-ordered association list with unique keys;
  `k in d` is `(alookup k d).isSome`, `d[k] = v` on a fresh key appends, and
  `del d[k]` removes the entry (`KeyError`, modelled as `none`, when absent).
* Methods that mutate `self` and may raise are embedded as functions
  returning the final state paired with `Option PyErr`: mutations performed
  before a raise persist, exactly as they do on the Python object.
* `bisect.bisect` / `bisect.bisect_left` / `bisect.insort` are standard
  library calls; they are modelled by their documented insertion-point
  semantics on the sorted lists the ring maintains.
* In `FileLock`, wall-clock time (`time.time`) and the filesystem are
  external; they enter the model as a per-iteration observation trace
  `fs : String → Nat → FsObs` (what the process observes at a given path on
  its i-th pass through the acquisition loop) plus the start time.  Float
  arithmetic on times is idealised as exact rational arithmetic.
-/

/-- Python exceptions raised by the ring code: `ValueError` from
`add_bucket`, `KeyError` from `del self.bucket_map[h]` (and dict lookup),
`IndexError` from list indexing/deletion. -/
inductive PyErr where
  | valueError
  | keyError
  | indexError
  deriving DecidableEq

/-- State of a `ConsistentHashRing` object: `keys` is the list of ring
hashes the class keeps sorted, `bucket_map` is the insertion-ordered dict
from hash value to bucket. (`replicas` is passed to the operations.) -/
structure HashRing where
  keys : List Nat
  bucket_map : List (Nat × String)
  deriving DecidableEq

/-- Dict lookup: `d[k]` / `k in d` on an association list. -/
def alookup (k : Nat) : List (Nat × String) → Option String
  | [] => none
  | e :: rest => if e.1 = k then some e.2 else alookup k rest

/-- Dict deletion `del d[k]`; `none` models the `KeyError` raised when the
key is absent. -/
def adelete (k : Nat) : List (Nat × String) → Option (List (Nat × String))
  | [] => none
  | e :: rest => if e.1 = k then some rest else (adelete k rest).map (e :: ·)

/-- Model of `bisect.bisect(a, x)` (= `bisect_right`): the number of leading
elements `≤ x`, which on a sorted list is the library's insertion point
after any equal entries. -/
def bisect_right (l : List Nat) (x : Nat) : Nat :=
  match l with
  | [] => 0
  | y :: ys => if y ≤ x then bisect_right ys x + 1 else 0

/-- Model of `bisect.bisect_left(a, x)`: the number of leading elements
`< x`, the insertion point before any equal entries on a sorted list. -/
def bisect_left (l : List Nat) (x : Nat) : Nat :=
  match l with
  | [] => 0
  | y :: ys => if y < x then bisect_left ys x + 1 else 0

/-- Model of `bisect.insort(a, x)`: insert `x` at the `bisect_right`
insertion point, i.e. after any elements `≤ x`. -/
def insort (l : List Nat) (x : Nat) : List Nat :=
  match l with
  | [] => [x]
  | y :: ys => if y ≤ x then y :: insort ys x else x :: y :: ys

/-- Python `del l[i]` on a list: `none` models the `IndexError` raised when
`i` is out of range (indices here are always nonnegative). -/
def delAt : Nat → List Nat → Option (List Nat)
  | _, [] => none
  | 0, _ :: ys => some ys
  | i + 1, y :: ys => (delAt i ys).map (y :: ·)

/-- The replica string `'%s:%d' % (bucket, r)`. -/
def replicaStr (b : String) (r : Nat) : String := b ++ ":" ++ Nat.repr r

/-- The hash values yielded by `ireplicas(bucket)`, in order
(`hash('%s:%d' % (bucket, r))` for `r in range(replicas)`). -/
def ireplicas (H : String → Nat) (replicas : Nat) (b : String) : List Nat :=
  (List.range replicas).map (fun r => H (replicaStr b r))

/-- The loop body of `add_bucket` over the remaining replica hashes: check
`h in self.bucket_map`, raise `ValueError` if present, else set
`self.bucket_map[h] = bucket` and `bisect.insort(self.keys, h)`. -/
def addLoop (b : String) (st : HashRing) : List Nat → HashRing × Option PyErr
  | [] => (st, none)
  | h :: hs =>
    if (alookup h st.bucket_map).isSome then (st, some PyErr.valueError)
    else addLoop b ⟨insort st.keys h, st.bucket_map ++ [(h, b)]⟩ hs

/-- `ConsistentHashRing.add_bucket(bucket)`. -/
def add_bucket (H : String → Nat) (replicas : Nat) (b : String) (st : HashRing) :
    HashRing × Option PyErr :=
  addLoop b st (ireplicas H replicas b)

/-- The loop body of `remove_bucket` over the remaining replica hashes:
`del self.bucket_map[h]` (raising `KeyError` when absent), then
`del self.keys[bisect.bisect_left(self.keys, h)]`. -/
def removeLoop (st : HashRing) : List Nat → HashRing × Option PyErr
  | [] => (st, none)
  | h :: hs =>
    match adelete h st.bucket_map with
    | none => (st, some PyErr.keyError)
    | some m =>
      match delAt (bisect_left st.keys h) st.keys with
      | none => (⟨st.keys, m⟩, some PyErr.indexError)
      | some ks => removeLoop ⟨ks, m⟩ hs

/-- `ConsistentHashRing.remove_bucket(bucket)`. -/
def remove_bucket (H : String → Nat) (replicas : Nat) (b : String) (st : HashRing) :
    HashRing × Option PyErr :=
  removeLoop st (ireplicas H replicas b)

/-- `ConsistentHashRing.select_bucket(key)`; `key` is already the string
form `str(key)` of the caller's key. -/
def select_bucket (H : String → Nat) (key : String) (st : HashRing) :
    Except PyErr String :=
  let h := H key
  let start := bisect_right st.keys h
  let start' := if start = st.keys.length then 0 else start
  match st.keys[start']? with
  | none => Except.error PyErr.indexError
  | some k =>
    match alookup k st.bucket_map with
    | none => Except.error PyErr.keyError
    | some b => Except.ok b

/-- The constructor's `list(map(self.add_bucket, buckets))`, stopping at the
first raised error (which leaves the partially built object behind). -/
def initLoop (H : String → Nat) (replicas : Nat) (st : HashRing) :
    List String → HashRing × Option PyErr
  | [] => (st, none)
  | b :: bs =>
    match add_bucket H replicas b st with
    | (st', none) => initLoop H replicas st' bs
    | (st', some e) => (st', some e)

/-- `ConsistentHashRing(buckets, replicas)`: start from the empty ring and
add each bucket in turn. -/
def initRing (H : String → Nat) (replicas : Nat) (buckets : List String) :
    HashRing × Option PyErr :=
  initLoop H replicas ⟨[], []⟩ buckets

/-- HashRing states reachable from a freshly constructed empty ring by
successful `add_bucket` / `remove_bucket` calls (construction from a bucket
list is exactly a sequence of such adds). -/
inductive Reachable (H : String → Nat) (replicas : Nat) : HashRing → Prop where
  | init : Reachable H replicas ⟨[], []⟩
  | add (b : String) (st st' : HashRing) : Reachable H replicas st →
      add_bucket H replicas b st = (st', none) → Reachable H replicas st'
  | remove (b : String) (st st' : HashRing) : Reachable H replicas st →
      remove_bucket H replicas b st = (st', none) → Reachable H replicas st'

/-- Worded from the spec, for comparison with `select_bucket`: the smallest
ring hash strictly greater than `h`, or, when none exists, the smallest
ring hash overall (wrap-around). -/
def specSuccessor (h : Nat) (keys : List Nat) : Option Nat :=
  match (keys.filter (fun k => decide (h < k))).min? with
  | some t => some t
  | none => keys.min?

/-- The ring invariant asserted by the spec: hashes sorted strictly
ascending with no duplicates, the set of hashes in the sequence equal to
the dict's key set, and every bucket present mapped to by exactly
`replicas` distinct hash values. -/
def ringInv (replicas : Nat) (st : HashRing) : Prop :=
  st.keys.Sorted (· < ·) ∧
  st.keys.toFinset = (st.bucket_map.map Prod.fst).toFinset ∧
  ∀ b ∈ st.bucket_map.map Prod.snd,
    ((st.bucket_map.filter (fun e => decide (e.2 = b))).map Prod.fst).toFinset.card
      = replicas

/-- The spec's standing no-hash-collision assumption (a collision "is an
error condition"): distinct replica strings never hash alike. -/
def HashCollisionFree (H : String → Nat) : Prop :=
  ∀ b r b' r', H (replicaStr b r) = H (replicaStr b' r') → b = b' ∧ r = r'

/-- Each character read as a positive digit below `2 ^ 32 + 1`. -/
def charsVal : List Char → Nat
  | [] => 0
  | c :: cs => (c.toNat + 1) + 4294967297 * charsVal cs

/-- An injective, computable stand-in hash used to instantiate theorems
that assume the hash function is collision-free. -/
def strVal (s : String) : Nat := charsVal s.data

/-- Errors that can escape `FileLock` methods: `FileLockTimeoutException`,
`OSError` with an errno (2 is `ENOENT`), the `KeyError` from
`info['pid']` on a pid-less JSON payload, the `RuntimeError` from
requesting stealing off POSIX, and exhaustion of the model's loop fuel. -/
inductive LockErr where
  | timeout (elapsed : Rat)
  | osError (errno : Nat)
  | keyError
  | runtimeError
  | fuelExhausted
  deriving DecidableEq

deriving instance DecidableEq for Except

/-- Outcome of `os.open(lockfile, O_CREAT | O_EXCL | O_RDWR)` as observed
on one pass through the loop. -/
inductive OpenRes where
  | ok (fd : Nat)
  | eexist
  | err (errno : Nat)
  deriving DecidableEq

/-- Outcome of `json.load(open(lockfile))`: a JSON object with or without a
`pid` field, invalid JSON (`ValueError`), a vanished file
(`IOError`/`ENOENT`), or another I/O error. -/
inductive ReadRes where
  | json (pid : Option Nat)
  | invalid
  | enoent
  | ioerr (errno : Nat)
  deriving DecidableEq

/-- Outcome of the liveness probe `os.kill(info['pid'], 0)`. -/
inductive KillRes where
  | alive
  | esrch
  | oserr (errno : Nat)
  deriving DecidableEq

/-- Everything the process can observe at one path during one pass through
the acquisition loop: the exclusive-create outcome, the lock-file read
used by `should_steal` (and by the timeout message), the liveness probe,
whether the file still exists when `os.unlink` runs, and `time.time()` at
the timeout check. -/
structure FsObs where
  openRes : OpenRes
  readRes : ReadRes
  killRes : KillRes
  unlinkExists : Bool
  now : Rat
  deriving DecidableEq

/-- State of a `FileLock` handle (the fields `__init__` sets). -/
structure FileLock where
  is_locked : Bool
  lockfile : String
  fd : Option Nat
  file_name : String
  timeout : Rat
  delay : Rat
  stealing : Bool
  deriving DecidableEq

/-- Model of `os.path.join(a, b)` for two POSIX path components: an
absolute second component wins; otherwise a slash separator is added
unless the first component is empty or already ends in one. -/
def pathJoin (a b : String) : String :=
  if b.data.head? = some '/' then b
  else if a = "" ∨ a.data.getLast? = some '/' then a ++ b
  else a ++ "/" ++ b

/-- `FileLock.__init__(file_name, timeout, delay, stealing)`: records the
fields and computes `lockfile = os.path.join(os.getcwd(), file_name +
".lock")`; requesting stealing on a non-POSIX system raises
`RuntimeError`. -/
def mkFileLock (cwd osName file_name : String) (timeout delay : Rat)
    (stealing : Bool) : Except LockErr FileLock :=
  if stealing ∧ osName ≠ "posix" then Except.error LockErr.runtimeError
  else Except.ok
    ⟨false, pathJoin cwd (file_name ++ ".lock"), none, file_name, timeout,
      delay, stealing⟩

/-- `FileLock.should_steal()`, as a function of what this pass observes:
invalid JSON and a vanished lock file are tolerated (no steal), other I/O
errors and a pid-less payload raise, and only a `No such process` liveness
probe votes to steal. -/
def should_steal (stealing : Bool) (o : FsObs) : Except LockErr Bool :=
  if stealing then
    match o.readRes with
    | ReadRes.invalid => Except.ok false
    | ReadRes.enoent => Except.ok false
    | ReadRes.ioerr e => Except.error (LockErr.osError e)
    | ReadRes.json none => Except.error LockErr.keyError
    | ReadRes.json (some _) =>
      match o.killRes with
      | KillRes.esrch => Except.ok true
      | _ => Except.ok false
  else Except.ok false

/-- The timeout branch of `acquire`: when stealing is on, the message
formatting re-opens and reads the lock file, so a vanished file turns the
timeout into an uncaught `OSError`. -/
def timeoutRaise (stealing : Bool) (o : FsObs) (elapsed : Rat) :
    Except LockErr Nat :=
  if stealing then
    match o.readRes with
    | ReadRes.enoent => Except.error (LockErr.osError 2)
    | ReadRes.ioerr e => Except.error (LockErr.osError e)
    | _ => Except.error (LockErr.timeout elapsed)
  else Except.error (LockErr.timeout elapsed)

/-- The `while True` loop of `FileLock.acquire`.  Arguments: remaining
fuel, the pass index `i`, and the count of `os.open` attempts made so far;
returns the file descriptor or the raised error, together with the total
number of `os.open` attempts. -/
def acquireLoop (fl : FileLock) (fs : String → Nat → FsObs) (start : Rat) :
    Nat → Nat → Nat → Except LockErr Nat × Nat
  | 0, _, opens => (Except.error LockErr.fuelExhausted, opens)
  | fuel + 1, i, opens =>
    let o := fs fl.lockfile i
    match o.openRes with
    | OpenRes.ok fd => (Except.ok fd, opens + 1)
    | OpenRes.err e => (Except.error (LockErr.osError e), opens + 1)
    | OpenRes.eexist =>
      match should_steal fl.stealing o with
      | Except.error e => (Except.error e, opens + 1)
      | Except.ok true =>
        if o.unlinkExists then acquireLoop fl fs start fuel (i + 1) (opens + 1)
        else (Except.error (LockErr.osError 2), opens + 1)
      | Except.ok false =>
        if fl.timeout ≤ o.now - start then (timeoutRaise fl.stealing o (o.now - start), opens + 1)
        else acquireLoop fl fs start fuel (i + 1) (opens + 1)

/-- `FileLock.acquire()`: run the loop from pass 0; on success set
`is_locked` and remember the descriptor, on a raise leave the handle
exactly as it was.  (The post-success metadata write that the stealing mode
performs touches only the file, not the handle, and is not modelled.)
Returns the result, the final handle state, and the number of `os.open`
attempts performed. -/
def acquire (fl : FileLock) (fs : String → Nat → FsObs) (start : Rat)
    (fuel : Nat) : Except LockErr Unit × FileLock × Nat :=
  match acquireLoop fl fs start fuel 0 0 with
  | (Except.ok fd, opens) =>
    (Except.ok (), ⟨true, fl.lockfile, some fd, fl.file_name, fl.timeout,
      fl.delay, fl.stealing⟩, opens)
  | (Except.error e, opens) => (Except.error e, fl, opens)

/-- `FileLock.__enter__()`: `if not self.is_locked: self.acquire()`. -/
def enterLock (fl : FileLock) (fs : String → Nat → FsObs) (start : Rat)
    (fuel : Nat) : Except LockErr Unit × FileLock × Nat :=
  if !fl.is_locked then acquire fl fs start fuel
  else (Except.ok (), fl, 0)

/-- The state after the insertions `add_bucket` performs for the given
hash list (no collision checking; used to describe partial effects). -/
def insertAll (b : String) (st : HashRing) : List Nat → HashRing
  | [] => st
  | h :: hs => insertAll b ⟨insort st.keys h, st.bucket_map ++ [(h, b)]⟩ hs

/-- Decimal value of a digit string, most significant digit first. -/
def digitsVal (l : List Char) : Nat :=
  l.foldl (fun a c => a * 10 + (c.toNat - Char.toNat '0')) 0

/-- Well-formedness of the ring representation: keys sorted strictly
ascending, dict keys unique, and the keys list carrying exactly the
dict's key set. -/
def ringWF (st : HashRing) : Prop :=
  st.keys.Sorted (· < ·) ∧
  (st.bucket_map.map Prod.fst).Nodup ∧
  st.keys.toFinset = (st.bucket_map.map Prod.fst).toFinset

instance : DecidablePred ringWF := fun st => by
  unfold ringWF; infer_instance

/-- Strong inductive invariant of reachable rings under a collision-free
hash: the representation is well formed, every dict entry is one of its
bucket's replica positions, and every bucket present has all of its
`replicas` positions present and mapped to it. -/
def ringSInv (H : String → Nat) (replicas : Nat) (st : HashRing) : Prop :=
  ringWF st ∧
  (∀ e ∈ st.bucket_map, ∃ r, r < replicas ∧ e.1 = H (replicaStr e.2 r)) ∧
  ∀ e ∈ st.bucket_map, ∀ r, r < replicas →
    alookup (H (replicaStr e.2 r)) st.bucket_map = some e.2

/-- Cumulative dict deletion (ignoring absent keys); used to state the
overall effect of `remove_bucket`'s loop. -/
def adeleteList (m : List (Nat × String)) : List Nat → List (Nat × String)
  | [] => m
  | k :: ks => adeleteList ((adelete k m).getD m) ks

/-- Cumulative erasure from the keys list; used to state the overall
effect of `remove_bucket`'s loop. -/
def eraseList (l : List Nat) : List Nat → List Nat
  | [] => l
  | k :: ks => eraseList (l.erase k) ks

/-! ### Lemmas about the dict and list models -/

theorem alookup_isSome_iff (k : Nat) (m : List (Nat × String)) :
    (alookup k m).isSome ↔ k ∈ m.map Prod.fst := by
  induction m with
  | nil => simp [alookup]
  | cons e rest ih =>
    by_cases h : e.1 = k
    · simp [alookup, h]
    · simp [alookup, h, ih, Ne.symm h]

theorem alookup_eq_none_iff (k : Nat) (m : List (Nat × String)) :
    alookup k m = none ↔ k ∉ m.map Prod.fst := by
  rw [← alookup_isSome_iff]
  cases alookup k m <;> simp

theorem adelete_eq_none_iff (k : Nat) (m : List (Nat × String)) :
    adelete k m = none ↔ alookup k m = none := by
  induction m with
  | nil => simp [adelete, alookup]
  | cons e rest ih =>
    by_cases h : e.1 = k
    · simp [adelete, alookup, h]
    · simp [adelete, alookup, h, ih]

theorem adelete_append_right {k : Nat} {m : List (Nat × String)}
    (l : List (Nat × String)) (h : alookup k m = none) :
    adelete k (m ++ l) = (adelete k l).map (m ++ ·) := by
  induction m with
  | nil => simp
  | cons e rest ih =>
    rw [alookup] at h
    by_cases he : e.1 = k
    · simp [he] at h
    · rw [if_neg he] at h
      rw [List.cons_append, adelete, if_neg he, ih h, Option.map_map]
      rfl

theorem adelete_sublist {k : Nat} {m m' : List (Nat × String)}
    (h : adelete k m = some m') : m'.Sublist m := by
  induction m generalizing m' with
  | nil => simp [adelete] at h
  | cons e rest ih =>
    by_cases he : e.1 = k
    · simp only [adelete, if_pos he, Option.some.injEq] at h
      exact h ▸ (List.sublist_cons_self e rest)
    · simp only [adelete, if_neg he, Option.map_eq_some'] at h
      obtain ⟨m'', hm'', rfl⟩ := h
      exact (ih hm'').cons₂ e

theorem alookup_adelete_self {k : Nat} {m m' : List (Nat × String)}
    (hnd : (m.map Prod.fst).Nodup) (h : adelete k m = some m') :
    alookup k m' = none := by
  induction m generalizing m' with
  | nil => simp [adelete] at h
  | cons e rest ih =>
    simp only [List.map_cons, List.nodup_cons] at hnd
    by_cases he : e.1 = k
    · simp only [adelete, if_pos he, Option.some.injEq] at h
      subst h
      exact (alookup_eq_none_iff _ _).2 (he ▸ hnd.1)
    · simp only [adelete, if_neg he, Option.map_eq_some'] at h
      obtain ⟨m'', hm'', rfl⟩ := h
      rw [alookup, if_neg he]
      exact ih hnd.2 hm''

theorem alookup_adelete_ne {k x : Nat} {m m' : List (Nat × String)}
    (h : adelete k m = some m') (hx : x ≠ k) :
    alookup x m' = alookup x m := by
  induction m generalizing m' with
  | nil => simp [adelete] at h
  | cons e rest ih =>
    by_cases he : e.1 = k
    · simp only [adelete, if_pos he, Option.some.injEq] at h
      subst h
      rw [alookup, if_neg (by rw [he]; exact fun hh => hx hh.symm)]
    · simp only [adelete, if_neg he, Option.map_eq_some'] at h
      obtain ⟨m'', hm'', rfl⟩ := h
      rw [alookup, alookup, ih hm'']

theorem alookup_none_of_sublist {x : Nat} {m m' : List (Nat × String)}
    (hsub : m'.Sublist m) (h : alookup x m = none) : alookup x m' = none := by
  rw [alookup_eq_none_iff] at h ⊢
  exact fun hx => h ((hsub.map Prod.fst).subset hx)

theorem insort_perm (l : List Nat) (x : Nat) : (insort l x).Perm (x :: l) := by
  induction l with
  | nil => rfl
  | cons y ys ih =>
    rw [insort]
    by_cases h : y ≤ x
    · rw [if_pos h]
      exact (ih.cons y).trans (List.Perm.swap x y ys)
    · rw [if_neg h]

theorem mem_insort {a x : Nat} {l : List Nat} :
    a ∈ insort l x ↔ a = x ∨ a ∈ l := by
  rw [(insort_perm l x).mem_iff, List.mem_cons]

theorem insort_sorted {l : List Nat} {x : Nat}
    (hs : l.Sorted (· < ·)) (hx : x ∉ l) : (insort l x).Sorted (· < ·) := by
  induction l with
  | nil => simp [insort]
  | cons y ys ih =>
    rw [List.sorted_cons] at hs
    rw [insort]
    by_cases h : y ≤ x
    · rw [if_pos h]
      have hyx : y < x :=
        lt_of_le_of_ne h (fun e => hx (e ▸ List.mem_cons_self y ys))
      rw [List.sorted_cons]
      refine ⟨fun b hb => ?_, ih hs.2 (fun hmem => hx (List.mem_cons_of_mem y hmem))⟩
      rcases mem_insort.1 hb with rfl | hb'
      · exact hyx
      · exact hs.1 b hb'
    · rw [if_neg h]
      push_neg at h
      rw [List.sorted_cons, List.sorted_cons]
      exact ⟨fun b hb => by
        rcases List.mem_cons.1 hb with rfl | hb'
        · exact h
        · exact h.trans (hs.1 b hb'), hs⟩

theorem delAt_bisect_left {l : List Nat} {x : Nat}
    (hs : l.Sorted (· ≤ ·)) (hx : x ∈ l) :
    delAt (bisect_left l x) l = some (l.erase x) := by
  induction l with
  | nil => cases hx
  | cons y ys ih =>
    rw [List.sorted_cons] at hs
    by_cases h : y < x
    · have hyx : y ≠ x := Nat.ne_of_lt h
      have hxys : x ∈ ys := by
        rcases List.mem_cons.1 hx with rfl | hm
        · exact absurd rfl (Nat.ne_of_lt h)
        · exact hm
      rw [bisect_left, if_pos h, delAt, ih hs.2 hxys,
        List.erase_cons_tail (by simp [beq_iff_eq]; exact hyx)]
      rfl
    · have hyx : y = x := by
        rcases List.mem_cons.1 hx with rfl | hm
        · rfl
        · exact Nat.le_antisymm (hs.1 x hm) (Nat.le_of_not_lt h)
      rw [bisect_left, if_neg h, delAt, hyx, List.erase_cons_head]

theorem erase_sorted {l : List Nat} {x : Nat} (hs : l.Sorted (· < ·)) :
    (l.erase x).Sorted (· < ·) :=
  List.Pairwise.sublist (List.erase_sublist x l) hs

theorem sorted_le_of_lt {l : List Nat} (hs : l.Sorted (· < ·)) :
    l.Sorted (· ≤ ·) :=
  hs.imp Nat.le_of_lt

theorem bisect_right_eq_takeWhile (l : List Nat) (x : Nat) :
    bisect_right l x = (l.takeWhile (fun y => decide (y ≤ x))).length := by
  induction l with
  | nil => rfl
  | cons y ys ih =>
    rw [bisect_right, List.takeWhile_cons]
    by_cases h : y ≤ x
    · simp [h, ih]
    · simp [h]

theorem dropWhile_sorted_eq_filter {l : List Nat} {x : Nat}
    (hs : l.Sorted (· ≤ ·)) :
    l.dropWhile (fun y => decide (y ≤ x)) = l.filter (fun y => decide (x < y)) := by
  induction l with
  | nil => rfl
  | cons y ys ih =>
    rw [List.sorted_cons] at hs
    rw [List.dropWhile_cons, List.filter_cons]
    by_cases h : y ≤ x
    · have h2 : ¬x < y := Nat.not_lt.2 h
      simp [h, h2]
      exact ih hs.2
    · have hxy : x < y := Nat.lt_of_not_le h
      simp [h, hxy]
      exact (List.filter_eq_self.2
        (fun a ha => decide_eq_true (hxy.trans_le (hs.1 a ha)))).symm

theorem sorted_min?_eq_head? {l : List Nat} (hs : l.Sorted (· ≤ ·)) :
    l.min? = l.head? := by
  induction l with
  | nil => rfl
  | cons y ys ih =>
    rw [List.sorted_cons] at hs
    rw [List.min?_cons, List.head?_cons]
    cases hy : ys with
    | nil => simp
    | cons z zs =>
      have hmin : ys.min? = ys.head? := ih hs.2
      rw [hy] at hmin
      rw [hmin, List.head?_cons]
      simp only [Option.elim_some]
      rw [Nat.min_eq_left (hs.1 z (by rw [hy]; exact List.mem_cons_self z zs))]

theorem specSuccessor_getElem {l : List Nat} {x : Nat}
    (hs : l.Sorted (· ≤ ·)) :
    l[(if bisect_right l x = l.length then 0 else bisect_right l x)]?
      = specSuccessor x l := by
  have hsplit : l.takeWhile (fun y => decide (y ≤ x))
      ++ l.dropWhile (fun y => decide (y ≤ x)) = l :=
    List.takeWhile_append_dropWhile _ _
  have hfilter := dropWhile_sorted_eq_filter (x := x) hs
  have hdropsorted : (l.dropWhile (fun y => decide (y ≤ x))).Sorted (· ≤ ·) :=
    List.Pairwise.sublist (List.dropWhile_sublist _) hs
  rw [specSuccessor, ← hfilter, sorted_min?_eq_head? hdropsorted]
  cases hd : l.dropWhile (fun y => decide (y ≤ x)) with
  | nil =>
    have hlen : bisect_right l x = l.length := by
      rw [bisect_right_eq_takeWhile]
      conv_rhs => rw [← hsplit]
      rw [hd, List.append_nil]
    rw [if_pos hlen]
    show l[0]? = l.min?
    rw [sorted_min?_eq_head? hs, List.head?_eq_getElem?]
  | cons z zs =>
    have hlen : bisect_right l x ≠ l.length := by
      rw [bisect_right_eq_takeWhile]
      intro hcontra
      have hlen2 := congrArg List.length hsplit
      rw [List.length_append, hd] at hlen2
      simp only [List.length_cons] at hlen2
      omega
    rw [if_neg hlen, bisect_right_eq_takeWhile]
    show l[(List.takeWhile (fun y => decide (y ≤ x)) l).length]? = some z
    have happ := @List.getElem?_append_right Nat
      (List.takeWhile (fun y => decide (y ≤ x)) l)
      (List.dropWhile (fun y => decide (y ≤ x)) l)
      (List.takeWhile (fun y => decide (y ≤ x)) l).length (Nat.le_refl _)
    rw [hsplit, Nat.sub_self, hd] at happ
    rw [happ]
    simp

/-! ### Claim C8 -/

/-- C8: for every key, calling `select_bucket` on a ring to which no
buckets have been added fails (with the `IndexError` that indexing the
empty `keys` list raises — the spec's `EmptyRingError`) and never returns
a bucket. -/
theorem c8_select_bucket_empty_ring (H : String → Nat) (key : String) :
    select_bucket H key ⟨[], []⟩ = Except.error PyErr.indexError := rfl

/-! ### Claim C3 -/

/-- C3: on a non-empty ring with sorted keys, `select_bucket` returns the
bucket that `bucket_map` assigns to the smallest ring hash strictly
greater than `hash(str(key))`, or, when no ring hash is strictly greater,
to the smallest ring hash (wrap-around) — `specSuccessor` is that
spec-worded target. -/
theorem c3_select_bucket_successor (H : String → Nat) (key : String)
    (st : HashRing) (t : Nat) (bkt : String)
    (hsorted : st.keys.Sorted (· ≤ ·))
    (hsucc : specSuccessor (H key) st.keys = some t)
    (hmap : alookup t st.bucket_map = some bkt) :
    select_bucket H key st = Except.ok bkt := by
  have hget := specSuccessor_getElem (l := st.keys) (x := H key) hsorted
  rw [hsucc] at hget
  unfold select_bucket
  simp only []
  rw [hget]
  show (match alookup t st.bucket_map with
    | none => Except.error PyErr.keyError
    | some b => Except.ok b) = Except.ok bkt
  rw [hmap]

/-- Witness for C3 at a concrete ring and key: the keys `[10, 30]` are
sorted, the spec-worded successor of the key hash `15` is `30`, `30` maps
to bucket `"b"`, and `select_bucket` indeed returns `"b"`. -/
theorem c3_select_bucket_successor_witness :
    List.Sorted (· ≤ ·) [10, 30] ∧
    specSuccessor 15 [10, 30] = some 30 ∧
    alookup 30 [(10, "a"), (30, "b")] = some "b" ∧
    select_bucket (fun _ => 15) "k" ⟨[10, 30], [(10, "a"), (30, "b")]⟩
      = Except.ok "b" :=
  ⟨by decide, by decide, by decide,
    c3_select_bucket_successor (fun _ => 15) "k"
      ⟨[10, 30], [(10, "a"), (30, "b")]⟩ 30 "b" (by decide) (by decide)
      (by decide)⟩

/-! ### Claim C1 -/

theorem addLoop_fail_spec {b : String} {st st' : HashRing} {hs : List Nat}
    {err : PyErr} (h : addLoop b st hs = (st', some err)) :
    err = PyErr.valueError ∧
    ∃ i hcol, hs[i]? = some hcol ∧ st' = insertAll b st (hs.take i) ∧
      (alookup hcol st'.bucket_map).isSome := by
  induction hs generalizing st with
  | nil => simp [addLoop] at h
  | cons h0 rest ih =>
    rw [addLoop] at h
    by_cases hp : (alookup h0 st.bucket_map).isSome
    · rw [if_pos hp] at h
      have h1 : st = st' := congrArg Prod.fst h
      have h2 : some PyErr.valueError = some err := congrArg Prod.snd h
      refine ⟨(Option.some.inj h2).symm, 0, h0, by simp, ?_, h1 ▸ hp⟩
      simp [insertAll, h1]
    · rw [if_neg hp] at h
      obtain ⟨herr, i, hcol, hget, hst, hsome⟩ := ih h
      refine ⟨herr, i + 1, hcol, by simpa using hget, ?_, hsome⟩
      rw [List.take_succ_cons, insertAll, hst]

/-- C1 counterexample: under a hash with a cross-bucket collision at
replica index 1 (md5 restricted to a fixed-width value is not injective,
so such collisions are not excluded by the code), `add_bucket "b"` on the
reachable two-entry ring raises `ValueError` but leaves replica 0 of
`"b"` inserted: the ring after the failed call differs from the ring
before it, so the failed add is not atomic. -/
theorem c1_add_bucket_not_atomic_counterexample :
    add_bucket
      (fun s => if s = "a:0" then 10 else if s = "a:1" then 30 else
        if s = "b:0" then 20 else 30) 2 "b" ⟨[10, 30], [(10, "a"), (30, "a")]⟩
      = (⟨[10, 20, 30], [(10, "a"), (30, "a"), (20, "b")]⟩,
          some PyErr.valueError) ∧
    (⟨[10, 20, 30], [(10, "a"), (30, "a"), (20, "b")]⟩ : HashRing)
      ≠ ⟨[10, 30], [(10, "a"), (30, "a")]⟩ ∧
    Reachable
      (fun s => if s = "a:0" then 10 else if s = "a:1" then 30 else
        if s = "b:0" then 20 else 30) 2 ⟨[10, 30], [(10, "a"), (30, "a")]⟩ :=
  ⟨by decide, by decide,
    Reachable.add "a" ⟨[], []⟩ ⟨[10, 30], [(10, "a"), (30, "a")]⟩
      Reachable.init (by decide)⟩

/-- C1 (amended): when `add_bucket` fails it raises the duplicate-bucket
`ValueError`, and the ring it leaves behind is the original ring with the
replicas preceding the first colliding index inserted (insertions are not
rolled back).  In particular, when the very first replica hash already
exists — as when re-adding an already present bucket — the ring is
exactly unchanged. -/
theorem c1_add_bucket_failure_effect (H : String → Nat) (replicas : Nat)
    (b : String) (st st' : HashRing) (err : PyErr)
    (hfail : add_bucket H replicas b st = (st', some err)) :
    err = PyErr.valueError ∧
    (∃ i hcol, (ireplicas H replicas b)[i]? = some hcol ∧
      st' = insertAll b st ((ireplicas H replicas b).take i) ∧
      (alookup hcol st'.bucket_map).isSome) ∧
    ((alookup (H (replicaStr b 0)) st.bucket_map).isSome → st' = st) := by
  refine ⟨(addLoop_fail_spec hfail).1, (addLoop_fail_spec hfail).2, ?_⟩
  intro hp
  cases replicas with
  | zero =>
    rw [add_bucket, ireplicas, List.range_zero, List.map_nil, addLoop] at hfail
    exact absurd (congrArg Prod.snd hfail) (by simp)
  | succ n =>
    rw [add_bucket, ireplicas, List.range_succ_eq_map, List.map_cons,
      addLoop, if_pos hp] at hfail
    exact (congrArg Prod.fst hfail).symm

/-- Witness for the amended C1 at a concrete input: re-adding a present
bucket (its replica-0 hash already in the dict) fails with `ValueError`
and leaves the ring unchanged. -/
theorem c1_add_bucket_failure_effect_witness :
    add_bucket (fun _ => 5) 1 "a" ⟨[5], [(5, "x")]⟩
      = (⟨[5], [(5, "x")]⟩, some PyErr.valueError) ∧
    (PyErr.valueError = PyErr.valueError ∧
      (∃ i hcol, (ireplicas (fun _ => 5) 1 "a")[i]? = some hcol ∧
        (⟨[5], [(5, "x")]⟩ : HashRing)
          = insertAll "a" ⟨[5], [(5, "x")]⟩
              ((ireplicas (fun _ => 5) 1 "a").take i) ∧
        (alookup hcol (⟨[5], [(5, "x")]⟩ : HashRing).bucket_map).isSome) ∧
      ((alookup ((fun _ : String => 5) (replicaStr "a" 0))
          (⟨[5], [(5, "x")]⟩ : HashRing).bucket_map).isSome →
        (⟨[5], [(5, "x")]⟩ : HashRing) = ⟨[5], [(5, "x")]⟩)) :=
  ⟨by decide,
    c1_add_bucket_failure_effect (fun _ => 5) 1 "a" ⟨[5], [(5, "x")]⟩
      ⟨[5], [(5, "x")]⟩ PyErr.valueError (by decide)⟩

/-! ### Claim C7 -/

theorem removeLoop_ok_sublist {st st' : HashRing} {hs : List Nat}
    (h : removeLoop st hs = (st', none)) :
    st'.bucket_map.Sublist st.bucket_map := by
  induction hs generalizing st with
  | nil =>
    rw [removeLoop] at h
    have h1 : st = st' := congrArg Prod.fst h
    rw [← h1]
  | cons h0 rest ih =>
    rw [removeLoop] at h
    cases hdel : adelete h0 st.bucket_map with
    | none => rw [hdel] at h; exact absurd (congrArg Prod.snd h) (by simp)
    | some m =>
      rw [hdel] at h
      cases hdelAt : delAt (bisect_left st.keys h0) st.keys with
      | none => rw [hdelAt] at h; exact absurd (congrArg Prod.snd h) (by simp)
      | some ks =>
        rw [hdelAt] at h
        exact (ih h).trans (adelete_sublist hdel)

theorem removeLoop_ok_absent {st st' : HashRing} {hs : List Nat}
    (hnd : (st.bucket_map.map Prod.fst).Nodup)
    (h : removeLoop st hs = (st', none)) :
    ∀ x ∈ hs, alookup x st'.bucket_map = none := by
  induction hs generalizing st with
  | nil => intro x hx; cases hx
  | cons h0 rest ih =>
    rw [removeLoop] at h
    cases hdel : adelete h0 st.bucket_map with
    | none => rw [hdel] at h; exact absurd (congrArg Prod.snd h) (by simp)
    | some m =>
      rw [hdel] at h
      cases hdelAt : delAt (bisect_left st.keys h0) st.keys with
      | none => rw [hdelAt] at h; exact absurd (congrArg Prod.snd h) (by simp)
      | some ks =>
        rw [hdelAt] at h
        have hndm : (m.map Prod.fst).Nodup :=
          ((adelete_sublist hdel).map Prod.fst).nodup hnd
        intro x hx
        rcases List.mem_cons.1 hx with rfl | hx'
        · exact alookup_none_of_sublist (removeLoop_ok_sublist h)
            (alookup_adelete_self hnd hdel)
        · exact ih hndm h x hx'

/-- C7: removing a bucket none of whose replica hashes are present fails
with `KeyError` (the spec's `NotFoundError`) at the very first replica and
leaves the ring unmodified; consequently a second removal of a bucket
just removed successfully fails the same way. -/
theorem c7_remove_bucket_absent (H : String → Nat) (replicas : Nat)
    (hrep : 0 < replicas) :
    (∀ st b,
      (∀ r, r < replicas → alookup (H (replicaStr b r)) st.bucket_map = none) →
      remove_bucket H replicas b st = (st, some PyErr.keyError)) ∧
    (∀ st st' b, (st.bucket_map.map Prod.fst).Nodup →
      remove_bucket H replicas b st = (st', none) →
      remove_bucket H replicas b st' = (st', some PyErr.keyError)) := by
  obtain ⟨n, rfl⟩ : ∃ n, replicas = n + 1 :=
    ⟨replicas - 1, (Nat.succ_pred_eq_of_pos hrep).symm⟩
  constructor
  · intro st b habs
    rw [remove_bucket, ireplicas, List.range_succ_eq_map, List.map_cons,
      removeLoop, (adelete_eq_none_iff _ _).2 (habs 0 (Nat.succ_pos n))]
  · intro st st' b hnd hok
    have habs := removeLoop_ok_absent hnd hok
    have hmem : H (replicaStr b 0) ∈ ireplicas H (n + 1) b := by
      rw [ireplicas, List.range_succ_eq_map, List.map_cons]
      exact List.mem_cons_self _ _
    rw [remove_bucket, ireplicas, List.range_succ_eq_map, List.map_cons,
      removeLoop, (adelete_eq_none_iff _ _).2 (habs _ hmem)]

/-- Witness for C7 at `replicas = 1`: removing from the empty ring fails
with `KeyError` leaving it empty, and removing bucket `"a"` twice from a
one-bucket ring fails the second time with `KeyError`. -/
theorem c7_remove_bucket_absent_witness :
    remove_bucket (fun _ => 5) 1 "a" ⟨[], []⟩
      = (⟨[], []⟩, some PyErr.keyError) ∧
    remove_bucket (fun _ => 5) 1 "a" ⟨[], []⟩
      = (⟨[], []⟩, some PyErr.keyError) ∧
    remove_bucket (fun _ => 5) 1 "a" ⟨[5], [(5, "a")]⟩ = (⟨[], []⟩, none) ∧
    remove_bucket (fun _ => 5) 1 "a" ⟨[], []⟩
      = (⟨[], []⟩, some PyErr.keyError) :=
  ⟨(c7_remove_bucket_absent (fun _ => 5) 1 (by decide)).1 ⟨[], []⟩ "a"
      (by decide),
    by decide, by decide,
    (c7_remove_bucket_absent (fun _ => 5) 1 (by decide)).2
      ⟨[5], [(5, "a")]⟩ ⟨[], []⟩ "a" (by decide) (by decide)⟩

/-! ### Claim C10 -/

theorem alookup_append_none {k : Nat} {m : List (Nat × String)}
    (l : List (Nat × String)) (h : alookup k m = none) :
    alookup k (m ++ l) = alookup k l := by
  induction m with
  | nil => simp
  | cons e rest ih =>
    rw [alookup] at h
    by_cases he : e.1 = k
    · simp [he] at h
    · rw [if_neg he] at h
      rw [List.cons_append, alookup, if_neg he, ih h]

theorem insertAll_map (b : String) (st : HashRing) (hs : List Nat) :
    (insertAll b st hs).bucket_map
      = st.bucket_map ++ hs.map (fun h => (h, b)) := by
  induction hs generalizing st with
  | nil => simp [insertAll]
  | cons h0 rest ih =>
    rw [insertAll, ih, List.map_cons]
    simp

theorem insertAll_keys_perm (b : String) (st : HashRing) (hs : List Nat) :
    (insertAll b st hs).keys.Perm (st.keys ++ hs) := by
  induction hs generalizing st with
  | nil => simp [insertAll]
  | cons h0 rest ih =>
    rw [insertAll]
    refine ((ih _).trans ?_)
    have h1 : (insort st.keys h0 ++ rest).Perm ((h0 :: st.keys) ++ rest) :=
      (insort_perm st.keys h0).append_right rest
    exact h1.trans List.perm_middle.symm

theorem insertAll_keys_sorted {b : String} {st : HashRing} {hs : List Nat}
    (hsorted : st.keys.Sorted (· < ·))
    (hfresh : ∀ h ∈ hs, h ∉ st.keys) (hnd : hs.Nodup) :
    (insertAll b st hs).keys.Sorted (· < ·) := by
  induction hs generalizing st with
  | nil => exact hsorted
  | cons h0 rest ih =>
    rw [List.nodup_cons] at hnd
    rw [insertAll]
    refine ih (insort_sorted hsorted (hfresh h0 (List.mem_cons_self _ _)))
      (fun h hh hmem => ?_) hnd.2
    rcases mem_insort.1 hmem with rfl | hmem'
    · exact hnd.1 hh
    · exact hfresh h (List.mem_cons_of_mem _ hh) hmem'

theorem addLoop_ok_of_fresh {b : String} {st : HashRing} {hs : List Nat}
    (hfresh : ∀ h ∈ hs, alookup h st.bucket_map = none) (hnd : hs.Nodup) :
    addLoop b st hs = (insertAll b st hs, none) := by
  induction hs generalizing st with
  | nil => rw [addLoop, insertAll]
  | cons h0 rest ih =>
    rw [List.nodup_cons] at hnd
    rw [addLoop, if_neg (by
      rw [hfresh h0 (List.mem_cons_self _ _)]; simp), insertAll]
    refine ih (fun h hh => ?_) hnd.2
    have hne : h ≠ h0 := fun e => hnd.1 (e ▸ hh)
    show alookup h (st.bucket_map ++ [(h0, b)]) = none
    rw [alookup_append_none _ (hfresh h (List.mem_cons_of_mem _ hh)),
      alookup, if_neg (fun e => hne e.symm)]
    rfl

theorem removeLoop_insertAll {b : String} {st : HashRing} {hs : List Nat}
    (hsorted : st.keys.Sorted (· < ·))
    (hsync : ∀ h, h ∈ st.keys ↔ (alookup h st.bucket_map).isSome)
    (hfresh : ∀ h ∈ hs, alookup h st.bucket_map = none) (hnd : hs.Nodup) :
    removeLoop (insertAll b st hs) hs = (st, none) := by
  induction hs with
  | nil => rw [insertAll, removeLoop]
  | cons h0 rest ih =>
    rw [List.nodup_cons] at hnd
    have hfreshK : ∀ h ∈ h0 :: rest, h ∉ st.keys := fun h hh hmem =>
      by rw [hsync h, hfresh h hh] at hmem; exact absurd hmem (by simp)
    have hSsorted := insertAll_keys_sorted (b := b) hsorted hfreshK
      (List.nodup_cons.2 hnd)
    have hSperm := insertAll_keys_perm b st (h0 :: rest)
    have hSmap := insertAll_map b st (h0 :: rest)
    have hdelmap : adelete h0 (insertAll b st (h0 :: rest)).bucket_map
        = some (st.bucket_map ++ rest.map (fun h => (h, b))) := by
      rw [hSmap, List.map_cons,
        adelete_append_right _ (hfresh h0 (List.mem_cons_self _ _)),
        adelete, if_pos rfl]
      rfl
    have hmemS : h0 ∈ (insertAll b st (h0 :: rest)).keys :=
      hSperm.mem_iff.2 (List.mem_append_right _ (List.mem_cons_self _ _))
    have hdelkeys := delAt_bisect_left (sorted_le_of_lt hSsorted) hmemS
    have hkeyseq : (insertAll b st (h0 :: rest)).keys.erase h0
        = (insertAll b st rest).keys := by
      refine List.eq_of_perm_of_sorted ?_
        (sorted_le_of_lt (erase_sorted hSsorted))
        (sorted_le_of_lt (insertAll_keys_sorted hsorted
          (fun h hh => hfreshK h (List.mem_cons_of_mem _ hh)) hnd.2))
      have h1 : ((insertAll b st (h0 :: rest)).keys.erase h0).Perm
          ((st.keys ++ h0 :: rest).erase h0) := hSperm.erase h0
      refine h1.trans ?_
      rw [List.erase_append_right _ (fun hc => hfreshK h0
        (List.mem_cons_self _ _) hc), List.erase_cons_head]
      exact (insertAll_keys_perm b st rest).symm
    have hstep : (⟨(insertAll b st (h0 :: rest)).keys.erase h0,
        st.bucket_map ++ rest.map (fun h => (h, b))⟩ : HashRing)
        = insertAll b st rest := by
      rw [hkeyseq, ← insertAll_map]
    rw [removeLoop, hdelmap, hdelkeys]
    show removeLoop ⟨(insertAll b st (h0 :: rest)).keys.erase h0,
      st.bucket_map ++ rest.map (fun h => (h, b))⟩ rest = (st, none)
    rw [hstep]
    exact ih (fun h hh => hfresh h (List.mem_cons_of_mem _ hh)) hnd.2

/-- C10: adding a bucket whose replica hashes are pairwise distinct and
absent from a well-formed ring, then removing it, returns the ring to
exactly its previous state (same sorted hash sequence, same
hash-to-bucket dict). -/
theorem c10_add_then_remove_roundtrip (H : String → Nat) (replicas : Nat)
    (b : String) (st : HashRing) (hwf : ringWF st)
    (hfresh : ∀ r, r < replicas →
      alookup (H (replicaStr b r)) st.bucket_map = none)
    (hnd : (ireplicas H replicas b).Nodup) :
    add_bucket H replicas b st = (insertAll b st (ireplicas H replicas b), none) ∧
    remove_bucket H replicas b (add_bucket H replicas b st).1 = (st, none) := by
  obtain ⟨hsorted, hndmap, hfs⟩ := hwf
  have hsync : ∀ h, h ∈ st.keys ↔ (alookup h st.bucket_map).isSome := fun h => by
    rw [alookup_isSome_iff, ← List.mem_toFinset, hfs, List.mem_toFinset]
  have hfresh' : ∀ h ∈ ireplicas H replicas b, alookup h st.bucket_map = none := by
    intro h hh
    obtain ⟨r, hr, rfl⟩ := List.mem_map.1 hh
    exact hfresh r (List.mem_range.1 hr)
  have hadd : add_bucket H replicas b st
      = (insertAll b st (ireplicas H replicas b), none) :=
    addLoop_ok_of_fresh hfresh' hnd
  refine ⟨hadd, ?_⟩
  rw [hadd]
  exact removeLoop_insertAll hsorted hsync hfresh' hnd

/-- Witness for C10 at a concrete ring: adding bucket `"b"` (two fresh,
distinct replica hashes) to the one-entry ring and removing it again
restores the ring exactly. -/
theorem c10_add_then_remove_roundtrip_witness :
    ringWF ⟨[15], [(15, "a")]⟩ ∧
    add_bucket (fun s => if s = "b:0" then 20 else 10) 2 "b" ⟨[15], [(15, "a")]⟩
      = (insertAll "b" ⟨[15], [(15, "a")]⟩
          (ireplicas (fun s => if s = "b:0" then 20 else 10) 2 "b"), none) ∧
    remove_bucket (fun s => if s = "b:0" then 20 else 10) 2 "b"
      (add_bucket (fun s => if s = "b:0" then 20 else 10) 2 "b"
        ⟨[15], [(15, "a")]⟩).1 = (⟨[15], [(15, "a")]⟩, none) :=
  ⟨by decide,
    (c10_add_then_remove_roundtrip (fun s => if s = "b:0" then 20 else 10) 2
      "b" ⟨[15], [(15, "a")]⟩ (by decide) (by decide) (by decide)).1,
    (c10_add_then_remove_roundtrip (fun s => if s = "b:0" then 20 else 10) 2
      "b" ⟨[15], [(15, "a")]⟩ (by decide) (by decide) (by decide)).2⟩

/-! ### Claim C9 -/

theorem acquireLoop_congr {fl : FileLock} {fs fs' : String → Nat → FsObs}
    {start : Rat} (h : ∀ i, fs fl.lockfile i = fs' fl.lockfile i) :
    ∀ fuel i opens,
      acquireLoop fl fs start fuel i opens
        = acquireLoop fl fs' start fuel i opens := by
  intro fuel
  induction fuel with
  | zero => intro i opens; rfl
  | succ n ih =>
    intro i opens
    simp only [acquireLoop, h i]
    split
    any_goals rfl
    split
    any_goals rfl
    · split
      · exact ih _ _
      · rfl
    · split
      · rfl
      · exact ih _ _

/-- C9 counterexample: the lock file is not at the caller-specified path.
For `FileLock('/tmp/x')` the file whose existence is the lock signal is
`/tmp/x.lock`, not `/tmp/x`. -/
theorem c9_lockfile_path_counterexample :
    mkFileLock "/home/u" "posix" "/tmp/x" 30 1 false
      = Except.ok ⟨false, "/tmp/x.lock", none, "/tmp/x", 30, 1, false⟩ ∧
    (⟨false, "/tmp/x.lock", none, "/tmp/x", 30, 1, false⟩ : FileLock).lockfile
      ≠ "/tmp/x" :=
  ⟨by decide, by decide⟩

/-- C9 (amended): the lock file `acquire` creates and polls lives at
`os.path.join(cwd, file_name + ".lock")` — the caller-specified name with
`".lock"` appended, resolved against the process working directory when
relative — and `acquire` consults the filesystem at exactly that path:
its outcome depends only on the observations at that path. -/
theorem c9_lockfile_path (cwd osName f : String) (t d : Rat) (s : Bool)
    (fl : FileLock) (hmk : mkFileLock cwd osName f t d s = Except.ok fl) :
    fl.lockfile = pathJoin cwd (f ++ ".lock") ∧
    ∀ fs fs' start fuel,
      (∀ i, fs (pathJoin cwd (f ++ ".lock")) i
        = fs' (pathJoin cwd (f ++ ".lock")) i) →
      acquire fl fs start fuel = acquire fl fs' start fuel := by
  rw [mkFileLock] at hmk
  by_cases hc : s ∧ osName ≠ "posix"
  · rw [if_pos hc] at hmk; cases hmk
  · rw [if_neg hc] at hmk
    have hfl := Except.ok.inj hmk
    have hlock : fl.lockfile = pathJoin cwd (f ++ ".lock") := by
      rw [← hfl]
    refine ⟨hlock, fun fs fs' start fuel hsame => ?_⟩
    have hsame' : ∀ i, fs fl.lockfile i = fs' fl.lockfile i := by
      rw [hlock]; exact hsame
    simp only [acquire]
    rw [acquireLoop_congr hsame']

/-- Witness for the amended C9: a concrete lock handle whose lock file is
`/w/f.lock`, with two observation functions agreeing at that path giving
the same acquire outcome. -/
theorem c9_lockfile_path_witness :
    mkFileLock "/w" "posix" "f" 30 1 false
      = Except.ok ⟨false, "/w/f.lock", none, "f", 30, 1, false⟩ ∧
    (⟨false, "/w/f.lock", none, "f", 30, 1, false⟩ : FileLock).lockfile
      = pathJoin "/w" ("f" ++ ".lock") ∧
    acquire ⟨false, "/w/f.lock", none, "f", 30, 1, false⟩
        (fun _ _ => ⟨OpenRes.ok 3, ReadRes.invalid, KillRes.alive, true, 0⟩) 0 1
      = acquire ⟨false, "/w/f.lock", none, "f", 30, 1, false⟩
        (fun p _ => if p = "/w/f.lock"
          then ⟨OpenRes.ok 3, ReadRes.invalid, KillRes.alive, true, 0⟩
          else ⟨OpenRes.eexist, ReadRes.enoent, KillRes.esrch, false, 5⟩) 0 1 :=
  ⟨by decide,
    (c9_lockfile_path "/w" "posix" "f" 30 1 false
      ⟨false, "/w/f.lock", none, "f", 30, 1, false⟩ (by decide)).1,
    (c9_lockfile_path "/w" "posix" "f" 30 1 false
      ⟨false, "/w/f.lock", none, "f", 30, 1, false⟩ (by decide)).2
      _ _ 0 1 (fun i => by decide)⟩

/-! ### Claim C2 -/

/-- C2 counterexample: `acquire` itself has no state check.  On a handle
already in the LOCKED state, with the lock file present (as it is while
locked), a direct `acquire()` call performs `os.open` attempts (three
here), blocks through the retry loop, and raises the timeout exception —
it is not a no-op. -/
theorem c2_acquire_locked_counterexample :
    acquire ⟨true, "/w/f.lock", some 3, "f", 2, 1, false⟩
        (fun _ i => ⟨OpenRes.eexist, ReadRes.invalid, KillRes.alive, true,
          (i : Rat)⟩) 0 10
      = (Except.error (LockErr.timeout 2),
          ⟨true, "/w/f.lock", some 3, "f", 2, 1, false⟩, 3) ∧
    (3 : Nat) ≠ 0 := by
  refine ⟨?_, by decide⟩
  norm_num [acquire, acquireLoop, should_steal, timeoutRaise]

/-- C2 (amended): the state-check guard lives in `__enter__`, not in
`acquire`: entering the context manager on a handle already LOCKED skips
`acquire` entirely — no file operation, no blocking, no state change —
while a direct `acquire()` call on a LOCKED handle retries the exclusive
create until it times out (see the counterexample). -/
theorem c2_enter_locked_noop (fl : FileLock) (fs : String → Nat → FsObs)
    (start : Rat) (fuel : Nat) (h : fl.is_locked = true) :
    enterLock fl fs start fuel = (Except.ok (), fl, 0) := by
  rw [enterLock, h]
  rfl

/-- Witness for the amended C2: a concrete LOCKED handle whose
context-manager entry is a no-op with zero `os.open` attempts. -/
theorem c2_enter_locked_noop_witness :
    (⟨true, "/w/f.lock", some 3, "f", 2, 1, false⟩ : FileLock).is_locked
      = true ∧
    enterLock ⟨true, "/w/f.lock", some 3, "f", 2, 1, false⟩
        (fun _ i => ⟨OpenRes.eexist, ReadRes.invalid, KillRes.alive, true,
          (i : Rat)⟩) 0 10
      = (Except.ok (), ⟨true, "/w/f.lock", some 3, "f", 2, 1, false⟩, 0) :=
  ⟨rfl, c2_enter_locked_noop _ _ 0 10 rfl⟩

/-! ### Claim C5 -/

/-- C5 counterexample: stealing is enabled, pass 0 finds the lock file
present (`EEXIST`), reads a valid payload whose recorded pid is dead
(`ESRCH`), so `should_steal` decides to steal; the file disappears before
`os.unlink`, and the unprotected unlink raises `OSError(ENOENT)` which
propagates out of `acquire` instead of being treated as a cleanup by
someone else — the loop does not retry. -/
theorem c5_unlink_race_counterexample :
    acquire ⟨false, "/w/f.lock", none, "f", 30, 1, true⟩
        (fun _ _ => ⟨OpenRes.eexist, ReadRes.json (some 7), KillRes.esrch,
          false, 0⟩) 0 10
      = (Except.error (LockErr.osError 2),
          ⟨false, "/w/f.lock", none, "f", 30, 1, true⟩, 1) := by
  norm_num [acquire, acquireLoop, should_steal]

/-- C5 (amended): the race the code tolerates is the file disappearing
between the failed exclusive create and `should_steal`'s read of the lock
file — `should_steal` then returns false without raising, and the
acquisition loop proceeds to its sleep-and-retry pass.  If instead the
file disappears after `should_steal` has decided to steal and before
`os.unlink`, the unlink raises an uncaught `OSError(ENOENT)` that
propagates out of `acquire`. -/
theorem c5_steal_race_behaviour (fl : FileLock) (fs : String → Nat → FsObs)
    (start : Rat) :
    (∀ o : FsObs, o.readRes = ReadRes.enoent →
      should_steal true o = Except.ok false) ∧
    (∀ fuel i opens, fl.stealing = true →
      (fs fl.lockfile i).openRes = OpenRes.eexist →
      (fs fl.lockfile i).readRes = ReadRes.enoent →
      ¬fl.timeout ≤ (fs fl.lockfile i).now - start →
      acquireLoop fl fs start (fuel + 1) i opens
        = acquireLoop fl fs start fuel (i + 1) (opens + 1)) ∧
    (∀ fuel i opens,
      (fs fl.lockfile i).openRes = OpenRes.eexist →
      should_steal fl.stealing (fs fl.lockfile i) = Except.ok true →
      (fs fl.lockfile i).unlinkExists = false →
      acquireLoop fl fs start (fuel + 1) i opens
        = (Except.error (LockErr.osError 2), opens + 1)) := by
  refine ⟨fun o hr => ?_, fun fuel i opens hst ho hr ht => ?_, 
    fun fuel i opens ho hsteal hu => ?_⟩
  · rw [should_steal, if_pos rfl, hr]
  · have hsteal : should_steal fl.stealing (fs fl.lockfile i)
        = Except.ok false := by
      rw [hst, should_steal, if_pos rfl, hr]
    simp only [acquireLoop, ho, hsteal, if_neg ht]
  · simp only [acquireLoop, ho, hsteal, hu]
    rfl

/-- Witness for the amended C5 at concrete observations: a vanished file
at read time yields a no-steal verdict and a plain retry pass, while a
vanished file at unlink time yields the propagated `OSError(ENOENT)`. -/
theorem c5_steal_race_behaviour_witness :
    should_steal true
      ⟨OpenRes.eexist, ReadRes.enoent, KillRes.alive, true, 0⟩
      = Except.ok false ∧
    acquireLoop ⟨false, "/w/f.lock", none, "f", 30, 1, true⟩
        (fun _ _ => ⟨OpenRes.eexist, ReadRes.enoent, KillRes.alive, true, 0⟩)
        0 (3 + 1) 0 0
      = acquireLoop ⟨false, "/w/f.lock", none, "f", 30, 1, true⟩
        (fun _ _ => ⟨OpenRes.eexist, ReadRes.enoent, KillRes.alive, true, 0⟩)
        0 3 (0 + 1) (0 + 1) ∧
    acquireLoop ⟨false, "/w/f.lock", none, "f", 30, 1, true⟩
        (fun _ _ => ⟨OpenRes.eexist, ReadRes.json (some 7), KillRes.esrch,
          false, 0⟩) 0 (3 + 1) 0 0
      = (Except.error (LockErr.osError 2), 0 + 1) :=
  ⟨(c5_steal_race_behaviour ⟨false, "/w/f.lock", none, "f", 30, 1, true⟩
      (fun _ _ => ⟨OpenRes.eexist, ReadRes.enoent, KillRes.alive, true, 0⟩)
      0).1 _ rfl,
    (c5_steal_race_behaviour ⟨false, "/w/f.lock", none, "f", 30, 1, true⟩
      (fun _ _ => ⟨OpenRes.eexist, ReadRes.enoent, KillRes.alive, true, 0⟩)
      0).2.1 3 0 0 rfl rfl rfl (by norm_num),
    (c5_steal_race_behaviour ⟨false, "/w/f.lock", none, "f", 30, 1, true⟩
      (fun _ _ => ⟨OpenRes.eexist, ReadRes.json (some 7), KillRes.esrch,
        false, 0⟩) 0).2.2 3 0 0 rfl rfl rfl⟩

/-! ### Claim C4 -/

theorem acquireLoop_timeout_spec (fl : FileLock) (fs : String → Nat → FsObs)
    (start gap : Rat)
    (heexist : ∀ i, (fs fl.lockfile i).openRes = OpenRes.eexist)
    (hnosteal : ∀ i,
      should_steal fl.stealing (fs fl.lockfile i) = Except.ok false)
    (hreadable : ∀ i, (fs fl.lockfile i).readRes ≠ ReadRes.enoent ∧
      ∀ e, (fs fl.lockfile i).readRes ≠ ReadRes.ioerr e)
    (hgap : ∀ i, (fs fl.lockfile (i + 1)).now - (fs fl.lockfile i).now ≤ gap) :
    ∀ fuel i opens K, i ≤ K → K < i + fuel →
      start + fl.timeout ≤ (fs fl.lockfile K).now →
      (fs fl.lockfile i).now - start < fl.timeout + gap →
      ∃ elapsed opens', acquireLoop fl fs start fuel i opens
          = (Except.error (LockErr.timeout elapsed), opens') ∧
        fl.timeout ≤ elapsed ∧ elapsed < fl.timeout + gap := by
  intro fuel
  induction fuel with
  | zero => intro i opens K hiK hKfuel _ _; omega
  | succ n ih =>
    intro i opens K hiK hKfuel hK hbound
    by_cases ht : fl.timeout ≤ (fs fl.lockfile i).now - start
    · refine ⟨(fs fl.lockfile i).now - start, opens + 1, ?_, ht, hbound⟩
      simp only [acquireLoop, heexist i, hnosteal i, if_pos ht]
      rw [timeoutRaise]
      by_cases hstl : fl.stealing = true
      · rw [if_pos hstl]
        rcases hrd : (fs fl.lockfile i).readRes with pid | _ | _ | e
        · rfl
        · rfl
        · exact absurd hrd (hreadable i).1
        · exact absurd hrd ((hreadable i).2 e)
      · rw [if_neg hstl]
    · have hiKne : i ≠ K := by
        intro e
        exact ht (by rw [e]; linarith)
      simp only [acquireLoop, heexist i, hnosteal i, if_neg ht]
      exact ih (i + 1) (opens + 1) K (by omega) (by omega) hK
        (by have := hgap i; linarith [Nat.lt_of_le_of_ne hiK hiKne])

/-- C4: on an UNLOCKED handle whose lock file exists and is never stolen
for the whole wait, `acquire` raises the timeout exception once the
configured timeout has elapsed — the elapsed wait at the raise is at
least `timeout` and, when consecutive time observations advance by at
most `gap`, less than `timeout + gap` — and the handle it leaves behind
is exactly the original one, still UNLOCKED. -/
theorem c4_acquire_timeout (fl : FileLock) (fs : String → Nat → FsObs)
    (start gap : Rat) (fuel K : Nat)
    (hunlocked : fl.is_locked = false)
    (heexist : ∀ i, (fs fl.lockfile i).openRes = OpenRes.eexist)
    (hnosteal : ∀ i,
      should_steal fl.stealing (fs fl.lockfile i) = Except.ok false)
    (hreadable : ∀ i, (fs fl.lockfile i).readRes ≠ ReadRes.enoent ∧
      ∀ e, (fs fl.lockfile i).readRes ≠ ReadRes.ioerr e)
    (hgap : ∀ i, (fs fl.lockfile (i + 1)).now - (fs fl.lockfile i).now ≤ gap)
    (hgap0 : (fs fl.lockfile 0).now - start ≤ gap)
    (hpos : 0 < fl.timeout)
    (hK : start + fl.timeout ≤ (fs fl.lockfile K).now) (hfuel : K < fuel) :
    ∃ elapsed opens,
      acquire fl fs start fuel
        = (Except.error (LockErr.timeout elapsed), fl, opens) ∧
      fl.timeout ≤ elapsed ∧ elapsed < fl.timeout + gap ∧
      fl.is_locked = false := by
  obtain ⟨el, op, hloop, h1, h2⟩ := acquireLoop_timeout_spec fl fs start gap
    heexist hnosteal hreadable hgap fuel 0 0 K (Nat.zero_le K) (by omega) hK
    (by linarith)
  refine ⟨el, op, ?_, h1, h2, hunlocked⟩
  rw [acquire, hloop]

/-- Witness for C4: a handle with `timeout = 2` polling a lock file that
always exists under a clock ticking one unit per pass raises the timeout
exception with elapsed wait exactly 2, leaving the handle UNLOCKED. -/
theorem c4_acquire_timeout_witness :
    ∃ elapsed opens,
      acquire ⟨false, "/w/f.lock", none, "f", 2, 1, false⟩
          (fun _ i => ⟨OpenRes.eexist, ReadRes.invalid, KillRes.alive, true,
            (i : Rat)⟩) 0 4
        = (Except.error (LockErr.timeout elapsed),
            ⟨false, "/w/f.lock", none, "f", 2, 1, false⟩, opens) ∧
      (⟨false, "/w/f.lock", none, "f", 2, 1, false⟩ : FileLock).timeout
          ≤ elapsed ∧
      elapsed < (⟨false, "/w/f.lock", none, "f", 2, 1, false⟩ : FileLock).timeout
          + 1 ∧
      (⟨false, "/w/f.lock", none, "f", 2, 1, false⟩ : FileLock).is_locked
          = false :=
  c4_acquire_timeout ⟨false, "/w/f.lock", none, "f", 2, 1, false⟩
    (fun _ i => ⟨OpenRes.eexist, ReadRes.invalid, KillRes.alive, true,
      (i : Rat)⟩) 0 1 4 2 rfl (fun _ => rfl) (fun _ => rfl)
    (fun _ => ⟨fun h => ReadRes.noConfusion h, fun e h => ReadRes.noConfusion h⟩)
    (fun i => by push_cast; linarith) (by norm_num) (by norm_num)
    (by push_cast; norm_num) (by norm_num)

/-! ### The concrete injective hash `strVal` -/

theorem char_toNat_lt (c : Char) : c.toNat + 1 < 4294967297 := by
  have h : c.toNat < 4294967296 := c.val.val.isLt
  omega

theorem char_toNat_inj {c d : Char} (h : c.toNat = d.toNat) : c = d :=
  Char.ext (UInt32.toNat.inj h)

theorem charsVal_inj : ∀ {l₁ l₂ : List Char}, charsVal l₁ = charsVal l₂ →
    l₁ = l₂ := by
  intro l₁
  induction l₁ with
  | nil =>
    intro l₂ h
    cases l₂ with
    | nil => rfl
    | cons d ds =>
      rw [charsVal, charsVal] at h
      omega
  | cons c cs ih =>
    intro l₂ h
    cases l₂ with
    | nil =>
      rw [charsVal, charsVal] at h
      omega
    | cons d ds =>
      rw [charsVal, charsVal] at h
      have hc := char_toNat_lt c
      have hd := char_toNat_lt d
      have h1 : c.toNat + 1 = (c.toNat + 1 + 4294967297 * charsVal cs)
          % 4294967297 := by
        rw [Nat.add_mul_mod_self_left, Nat.mod_eq_of_lt hc]
      have h2 : d.toNat + 1 = (d.toNat + 1 + 4294967297 * charsVal ds)
          % 4294967297 := by
        rw [Nat.add_mul_mod_self_left, Nat.mod_eq_of_lt hd]
      have hchar : c.toNat = d.toNat := by
        rw [h] at h1
        omega
      have h3 : charsVal cs = charsVal ds := by
        have e1 : (c.toNat + 1 + 4294967297 * charsVal cs) / 4294967297
            = (c.toNat + 1) / 4294967297 + charsVal cs :=
          Nat.add_mul_div_left _ _ (by omega)
        have e2 : (d.toNat + 1 + 4294967297 * charsVal ds) / 4294967297
            = (d.toNat + 1) / 4294967297 + charsVal ds :=
          Nat.add_mul_div_left _ _ (by omega)
        rw [h] at e1
        rw [e2] at e1
        have e3 : (c.toNat + 1) / 4294967297 = 0 := Nat.div_eq_of_lt hc
        have e4 : (d.toNat + 1) / 4294967297 = 0 := Nat.div_eq_of_lt hd
        omega
      rw [char_toNat_inj hchar, ih h3]

theorem strVal_inj : Function.Injective strVal := fun _ _ h =>
  String.ext (charsVal_inj h)

/-! ### Decimal representations contain no colon and are injective -/

theorem digitChar_ne_colon : ∀ n, Nat.digitChar n ≠ ':' := by
  intro n
  rcases Nat.lt_or_ge n 16 with h | h
  · interval_cases n <;> decide
  · have e : Nat.digitChar n = '*' := by
      unfold Nat.digitChar
      repeat rw [if_neg (by omega)]
    rw [e]; decide

theorem toDigitsCore_mem {b : Nat} : ∀ (f n : Nat) (acc : List Char),
    ∀ c ∈ Nat.toDigitsCore b f n acc, c ∈ acc ∨ ∃ m, c = Nat.digitChar m := by
  intro f
  induction f with
  | zero => intro n acc c hc; exact Or.inl hc
  | succ f ih =>
    intro n acc c hc
    rw [Nat.toDigitsCore] at hc
    by_cases hz : n / b = 0
    · rw [if_pos hz] at hc
      rcases List.mem_cons.1 hc with rfl | hacc
      · exact Or.inr ⟨n % b, rfl⟩
      · exact Or.inl hacc
    · rw [if_neg hz] at hc
      rcases ih (n / b) (Nat.digitChar (n % b) :: acc) c hc with hacc | hd
      · rcases List.mem_cons.1 hacc with rfl | hacc'
        · exact Or.inr ⟨n % b, rfl⟩
        · exact Or.inl hacc'
      · exact Or.inr hd

theorem repr_no_colon (n : Nat) : ':' ∉ (Nat.repr n).data := by
  intro hc
  have h : (Nat.repr n).data = Nat.toDigits 10 n := rfl
  rw [h, Nat.toDigits] at hc
  rcases toDigitsCore_mem (n + 1) n [] ':' hc with habs | ⟨m, hm⟩
  · cases habs
  · exact digitChar_ne_colon m hm.symm

theorem toDigitsCore_acc {b : Nat} : ∀ (f n : Nat) (acc : List Char),
    Nat.toDigitsCore b f n acc = Nat.toDigitsCore b f n [] ++ acc := by
  intro f
  induction f with
  | zero => intro n acc; rfl
  | succ f ih =>
    intro n acc
    rw [Nat.toDigitsCore, Nat.toDigitsCore]
    by_cases hz : n / b = 0
    · rw [if_pos hz, if_pos hz]
      rfl
    · rw [if_neg hz, if_neg hz, ih (n / b) [Nat.digitChar (n % b)],
        ih (n / b) (Nat.digitChar (n % b) :: acc), List.append_assoc]
      rfl

theorem digitChar_decode : ∀ m, m < 10 →
    (Nat.digitChar m).toNat - Char.toNat '0' = m := by decide

theorem digitsVal_toDigitsCore : ∀ (f n : Nat), n < f →
    digitsVal (Nat.toDigitsCore 10 f n []) = n := by
  intro f
  induction f with
  | zero => intro n h; omega
  | succ f ih =>
    intro n h
    rw [Nat.toDigitsCore]
    by_cases hz : n / 10 = 0
    · rw [if_pos hz, digitsVal, List.foldl_cons, List.foldl_nil,
        digitChar_decode (n % 10) (Nat.mod_lt n (by omega))]
      omega
    · rw [if_neg hz, toDigitsCore_acc f (n / 10) [Nat.digitChar (n % 10)]]
      have hlt : n / 10 < f := by
        have h1 : n / 10 < n := Nat.div_lt_self (by omega) (by omega)
        omega
      have hval := ih (n / 10) hlt
      rw [digitsVal, List.foldl_append, List.foldl_cons, List.foldl_nil]
      rw [digitsVal] at hval
      rw [hval, digitChar_decode (n % 10) (Nat.mod_lt n (by omega))]
      omega

theorem repr_inj : Function.Injective Nat.repr := by
  intro m n h
  have hd : Nat.toDigits 10 m = Nat.toDigits 10 n := congrArg String.data h
  have hm := digitsVal_toDigitsCore (m + 1) m (Nat.lt_succ_self m)
  have hn := digitsVal_toDigitsCore (n + 1) n (Nat.lt_succ_self n)
  rw [← Nat.toDigits] at hm hn
  rw [hd, hn] at hm
  exact hm.symm

theorem split_first_unique {c : Char} : ∀ (x₁ x₂ y₁ y₂ : List Char),
    c ∉ x₁ → c ∉ x₂ → x₁ ++ c :: y₁ = x₂ ++ c :: y₂ → x₁ = x₂ ∧ y₁ = y₂ := by
  intro x₁
  induction x₁ with
  | nil =>
    intro x₂ y₁ y₂ h1 h2 heq
    cases x₂ with
    | nil =>
      rw [List.nil_append, List.nil_append] at heq
      exact ⟨rfl, (List.cons.injEq .. ▸ heq : _ ∧ _).2⟩
    | cons a x₂' =>
      rw [List.nil_append, List.cons_append] at heq
      injection heq with h3 h4
      exact absurd (h3 ▸ List.mem_cons_self a x₂') h2
  | cons a x₁' ih =>
    intro x₂ y₁ y₂ h1 h2 heq
    cases x₂ with
    | nil =>
      rw [List.nil_append, List.cons_append] at heq
      injection heq with h3 h4
      exact absurd (h3.symm ▸ List.mem_cons_self a x₁') h1
    | cons b x₂' =>
      rw [List.cons_append, List.cons_append] at heq
      injection heq with h3 h4
      obtain ⟨h5, h6⟩ := ih x₂' y₁ y₂
        (fun hh => h1 (List.mem_cons_of_mem a hh))
        (fun hh => h2 (List.mem_cons_of_mem b hh)) h4
      exact ⟨by rw [h3, h5], h6⟩

theorem replicaStr_inj {b b' : String} {r r' : Nat}
    (h : replicaStr b r = replicaStr b' r') : b = b' ∧ r = r' := by
  have hdata : b.data ++ ':' :: (Nat.repr r).data
      = b'.data ++ ':' :: (Nat.repr r').data := by
    have h1 := congrArg String.data h
    rw [replicaStr, replicaStr, String.data_append, String.data_append,
      String.data_append, String.data_append] at h1
    simpa using h1
  have hrev := congrArg List.reverse hdata
  rw [List.reverse_append, List.reverse_append, List.reverse_cons,
    List.reverse_cons, List.append_assoc, List.append_assoc,
    List.singleton_append, List.singleton_append] at hrev
  obtain ⟨h5, h6⟩ := split_first_unique _ _ _ _
    (fun hh => repr_no_colon r (List.mem_reverse.1 hh))
    (fun hh => repr_no_colon r' (List.mem_reverse.1 hh)) hrev
  refine ⟨String.ext (List.reverse_injective h6), ?_⟩
  exact repr_inj (String.ext (List.reverse_injective h5))

/-- The concrete stand-in hash `strVal` is collision free on replica
strings, as md5 is assumed to be by the spec. -/
theorem strVal_collisionFree : HashCollisionFree strVal := by
  intro b r b' r' h
  exact replicaStr_inj (strVal_inj h)

/-! ### Characterisations used by the invariant claim -/

theorem alookup_mem {k : Nat} {v : String} {m : List (Nat × String)}
    (h : alookup k m = some v) : (k, v) ∈ m := by
  induction m with
  | nil => cases h
  | cons e rest ih =>
    rw [alookup] at h
    by_cases he : e.1 = k
    · rw [if_pos he] at h
      have hv := Option.some.inj h
      rw [← he, ← hv]
      exact List.mem_cons_self e rest
    · rw [if_neg he] at h
      exact List.mem_cons_of_mem e (ih h)

theorem alookup_append_some {k : Nat} {v : String} {m : List (Nat × String)}
    (l : List (Nat × String)) (h : alookup k m = some v) :
    alookup k (m ++ l) = some v := by
  induction m with
  | nil => cases h
  | cons e rest ih =>
    rw [alookup] at h
    rw [List.cons_append, alookup]
    by_cases he : e.1 = k
    · rw [if_pos he] at h ⊢; exact h
    · rw [if_neg he] at h ⊢; exact ih h

theorem alookup_append_none_iff (k : Nat) (m l : List (Nat × String)) :
    alookup k (m ++ l) = none ↔ alookup k m = none ∧ alookup k l = none := by
  induction m with
  | nil => simp [alookup]
  | cons e rest ih =>
    rw [List.cons_append, alookup, alookup]
    by_cases he : e.1 = k
    · simp [he]
    · rw [if_neg he, if_neg he, ih]

theorem alookup_map_const {x : Nat} {b : String} {hs : List Nat}
    (hx : x ∈ hs) : alookup x (hs.map (fun h => (h, b))) = some b := by
  induction hs with
  | nil => cases hx
  | cons h0 rest ih =>
    rw [List.map_cons, alookup]
    by_cases he : h0 = x
    · rw [if_pos he]
    · rw [if_neg he]
      rcases List.mem_cons.1 hx with rfl | hm
      · exact absurd rfl he
      · exact ih hm

theorem mem_ireplicas {H : String → Nat} {n : Nat} {b : String} {x : Nat} :
    x ∈ ireplicas H n b ↔ ∃ r, r < n ∧ x = H (replicaStr b r) := by
  simp only [ireplicas, List.mem_map, List.mem_range]
  constructor
  · rintro ⟨r, hr, rfl⟩; exact ⟨r, hr, rfl⟩
  · rintro ⟨r, hr, rfl⟩; exact ⟨r, hr, rfl⟩

theorem addLoop_ok_spec {b : String} {st st' : HashRing} {hs : List Nat}
    (h : addLoop b st hs = (st', none)) :
    st' = insertAll b st hs ∧ hs.Nodup ∧
      ∀ x ∈ hs, alookup x st.bucket_map = none := by
  induction hs generalizing st with
  | nil =>
    rw [addLoop] at h
    exact ⟨(congrArg Prod.fst h).symm, List.nodup_nil, fun x hx => absurd hx
      (List.not_mem_nil x)⟩
  | cons h0 rest ih =>
    rw [addLoop] at h
    by_cases hp : (alookup h0 st.bucket_map).isSome
    · rw [if_pos hp] at h
      exact absurd (congrArg Prod.snd h) (by simp)
    · rw [if_neg hp] at h
      obtain ⟨hst', hnd, hfresh₁⟩ := ih h
      have hh0 : alookup h0 st.bucket_map = none :=
        Option.not_isSome_iff_eq_none.1 hp
      have hfreshrest : ∀ x ∈ rest, alookup x st.bucket_map = none :=
        fun x hx => ((alookup_append_none_iff x _ _).1 (hfresh₁ x hx)).1
      have hnotmem : h0 ∉ rest := by
        intro hmem
        have := ((alookup_append_none_iff h0 _ _).1 (hfresh₁ h0 hmem)).2
        rw [alookup, if_pos rfl] at this
        cases this
      refine ⟨hst', List.nodup_cons.2 ⟨hnotmem, hnd⟩, fun x hx => ?_⟩
      rcases List.mem_cons.1 hx with rfl | hx'
      · exact hh0
      · exact hfreshrest x hx'

theorem sinv_add {H : String → Nat} {n : Nat} {b : String} {st st' : HashRing}
    (hsinv : ringSInv H n st)
    (hok : add_bucket H n b st = (st', none)) : ringSInv H n st' := by
  obtain ⟨⟨hsorted, hnd, hfs⟩, hrep, hall⟩ := hsinv
  obtain ⟨hst', hhnd, hfresh⟩ := addLoop_ok_spec hok
  subst hst'
  have hsync : ∀ h, h ∈ st.keys ↔ (alookup h st.bucket_map).isSome :=
    fun h => by rw [alookup_isSome_iff, ← List.mem_toFinset, hfs,
      List.mem_toFinset]
  have hfreshK : ∀ x ∈ ireplicas H n b, x ∉ st.keys := fun x hx hmem => by
    rw [hsync x, hfresh x hx] at hmem
    exact absurd hmem (by simp)
  have hmapfst : ((ireplicas H n b).map (fun h => (h, b))).map Prod.fst
      = ireplicas H n b := by
    rw [List.map_map]
    exact List.map_id _
  refine ⟨⟨insertAll_keys_sorted hsorted hfreshK hhnd, ?_, ?_⟩, ?_, ?_⟩
  · rw [insertAll_map, List.map_append, hmapfst]
    rw [List.nodup_append]
    refine ⟨hnd, hhnd, fun x hx hx' => ?_⟩
    have := hfresh x hx'
    rw [alookup_eq_none_iff] at this
    exact this hx
  · have hkeysfin : (insertAll b st (ireplicas H n b)).keys.toFinset
        = (st.keys ++ ireplicas H n b).toFinset := by
      apply Finset.ext
      intro a
      rw [List.mem_toFinset, List.mem_toFinset,
        (insertAll_keys_perm b st (ireplicas H n b)).mem_iff]
    rw [hkeysfin, List.toFinset_append, insertAll_map, List.map_append,
      hmapfst, List.toFinset_append, hfs]
  · intro e he
    rw [insertAll_map] at he
    rcases List.mem_append.1 he with hold | hnew
    · exact hrep e hold
    · obtain ⟨x, hx, rfl⟩ := List.mem_map.1 hnew
      obtain ⟨r, hr, rfl⟩ := mem_ireplicas.1 hx
      exact ⟨r, hr, rfl⟩
  · intro e he r hr
    rw [insertAll_map] at he ⊢
    rcases List.mem_append.1 he with hold | hnew
    · exact alookup_append_some _ (hall e hold r hr)
    · obtain ⟨x, hx, rfl⟩ := List.mem_map.1 hnew
      have hmem : H (replicaStr b r) ∈ ireplicas H n b :=
        mem_ireplicas.2 ⟨r, hr, rfl⟩
      rw [alookup_append_none _ (hfresh _ hmem)]
      exact alookup_map_const hmem

theorem adelete_getD_filter {k : Nat} {m : List (Nat × String)}
    (hnd : (m.map Prod.fst).Nodup) :
    (adelete k m).getD m = m.filter (fun e => decide (e.1 ≠ k)) := by
  induction m with
  | nil => rfl
  | cons e rest ih =>
    rw [List.map_cons, List.nodup_cons] at hnd
    rw [adelete, List.filter_cons]
    by_cases he : e.1 = k
    · rw [if_pos he, Option.getD_some, if_neg (by simp [he])]
      symm
      apply List.filter_eq_self.2
      intro a ha
      have hane : a.1 ≠ k := fun hk =>
        hnd.1 (he ▸ hk ▸ List.mem_map_of_mem Prod.fst ha)
      simp [hane]
    · rw [if_neg he, if_pos (by simp [he])]
      cases hrest : adelete k rest with
      | none =>
        have hnone := (adelete_eq_none_iff k rest).1 hrest
        rw [alookup_eq_none_iff] at hnone
        simp only [Option.map_none', Option.getD_none]
        rw [List.filter_eq_self.2 (fun a ha => by
          simp only [decide_eq_true_eq]
          exact fun hk => hnone (hk ▸ List.mem_map_of_mem Prod.fst ha))]
      | some m' =>
        have hih := ih hnd.2
        rw [hrest, Option.getD_some] at hih
        simp only [Option.map_some', Option.getD_some]
        rw [hih]

theorem adeleteList_filter {m : List (Nat × String)} :
    ∀ {hs : List Nat}, (m.map Prod.fst).Nodup →
    adeleteList m hs = m.filter (fun e => decide (e.1 ∉ hs)) := by
  intro hs
  induction hs generalizing m with
  | nil =>
    intro hnd
    rw [adeleteList]
    symm
    apply List.filter_eq_self.2
    intro a _
    simp
  | cons k ks ih =>
    intro hnd
    rw [adeleteList, adelete_getD_filter hnd,
      ih (((List.filter_sublist m).map Prod.fst).nodup hnd),
      List.filter_filter]
    apply List.filter_congr
    intro a _
    by_cases h1 : a.1 = k <;> by_cases h2 : a.1 ∈ ks <;> simp [h1, h2]

theorem eraseList_filter {l : List Nat} :
    ∀ {hs : List Nat}, l.Nodup →
    eraseList l hs = l.filter (fun x => decide (x ∉ hs)) := by
  intro hs
  induction hs generalizing l with
  | nil =>
    intro _
    rw [eraseList]
    symm
    apply List.filter_eq_self.2
    intro a _
    simp
  | cons k ks ih =>
    intro hnd
    rw [eraseList, hnd.erase_eq_filter,
      ih ((List.filter_sublist l).nodup hnd), List.filter_filter]
    apply List.filter_congr
    intro a _
    by_cases h1 : a = k <;> by_cases h2 : a ∈ ks <;> simp [h1, h2]

theorem alookup_filter_not_mem {k : Nat} {hs : List Nat}
    {m : List (Nat × String)} (hk : k ∉ hs) :
    alookup k (m.filter (fun e => decide (e.1 ∉ hs))) = alookup k m := by
  induction m with
  | nil => rfl
  | cons e rest ih =>
    rw [List.filter_cons, alookup]
    by_cases hin : e.1 ∈ hs
    · rw [if_neg (by simp [hin])]
      have hne : e.1 ≠ k := fun hk' => hk (hk' ▸ hin)
      rw [if_neg hne]
      exact ih
    · rw [if_pos (by simp [hin]), alookup]
      by_cases he : e.1 = k
      · rw [if_pos he, if_pos he]
      · rw [if_neg he, if_neg he]
        exact ih

theorem removeLoop_of_present {st : HashRing} :
    ∀ {hs : List Nat}, st.keys.Sorted (· < ·) →
    (st.bucket_map.map Prod.fst).Nodup →
    (∀ h, h ∈ st.keys ↔ (alookup h st.bucket_map).isSome) →
    (∀ x ∈ hs, (alookup x st.bucket_map).isSome) → hs.Nodup →
    removeLoop st hs
      = (⟨eraseList st.keys hs, adeleteList st.bucket_map hs⟩, none) := by
  intro hs
  induction hs generalizing st with
  | nil => intro _ _ _ _ _; rw [removeLoop, eraseList, adeleteList]
  | cons x ks ih =>
    intro hsorted hnd hsync hpresent hhnd
    rw [List.nodup_cons] at hhnd
    have hx := hpresent x (List.mem_cons_self _ _)
    cases hdel : adelete x st.bucket_map with
    | none =>
      rw [adelete_eq_none_iff] at hdel
      rw [hdel] at hx
      cases hx
    | some m₁ =>
      have hxk : x ∈ st.keys := (hsync x).2 hx
      have hdelAt := delAt_bisect_left (sorted_le_of_lt hsorted) hxk
      rw [removeLoop, hdel, hdelAt]
      have hkeysnd : st.keys.Nodup := hsorted.nodup
      have hnd₁ : (m₁.map Prod.fst).Nodup :=
        ((adelete_sublist hdel).map Prod.fst).nodup hnd
      have hsync₁ : ∀ h, h ∈ st.keys.erase x ↔ (alookup h m₁).isSome := by
        intro h
        rw [hkeysnd.mem_erase_iff]
        by_cases hhx : h = x
        · subst hhx
          rw [alookup_adelete_self hnd hdel]
          simp
        · rw [alookup_adelete_ne hdel hhx, ← hsync h]
          simp [hhx]
      have hpresent₁ : ∀ y ∈ ks, (alookup y m₁).isSome := fun y hy => by
        rw [alookup_adelete_ne hdel (fun e => hhnd.1 (e ▸ hy))]
        exact hpresent y (List.mem_cons_of_mem _ hy)
      have hrec := @ih ⟨st.keys.erase x, m₁⟩ (erase_sorted hsorted) hnd₁
        hsync₁ hpresent₁ hhnd.2
      show removeLoop ⟨st.keys.erase x, m₁⟩ ks
        = (⟨eraseList st.keys (x :: ks), adeleteList st.bucket_map (x :: ks)⟩,
            none)
      rw [hrec, eraseList, adeleteList, hdel, Option.getD_some]

theorem sinv_remove {H : String → Nat} {n : Nat} {b : String}
    {st st' : HashRing} (HInj : HashCollisionFree H)
    (hsinv : ringSInv H n st)
    (hok : remove_bucket H n b st = (st', none)) : ringSInv H n st' := by
  cases n with
  | zero =>
    rw [remove_bucket, ireplicas, List.range_zero, List.map_nil,
      removeLoop] at hok
    have h1 : st = st' := congrArg Prod.fst hok
    rw [← h1]
    exact hsinv
  | succ m =>
    obtain ⟨⟨hsorted, hnd, hfs⟩, hrep, hall⟩ := hsinv
    have hsync : ∀ h, h ∈ st.keys ↔ (alookup h st.bucket_map).isSome :=
      fun h => by rw [alookup_isSome_iff, ← List.mem_toFinset, hfs,
        List.mem_toFinset]
    have hhnd : (ireplicas H (m + 1) b).Nodup :=
      (List.nodup_range (m + 1)).map_on
        (fun r _ r' _ hf => (HInj b r b r' hf).2)
    -- the first deletion must have succeeded, so bucket `b` is present
    have hb : (H (replicaStr b 0), b) ∈ st.bucket_map := by
      rw [remove_bucket, ireplicas, List.range_succ_eq_map,
        List.map_cons, removeLoop] at hok
      cases hdel : adelete (H (replicaStr b 0)) st.bucket_map with
      | none =>
        rw [hdel] at hok
        exact absurd (congrArg Prod.snd hok) (by simp)
      | some m₁ =>
        have hlookne : alookup (H (replicaStr b 0)) st.bucket_map ≠ none := by
          intro hln
          rw [(adelete_eq_none_iff _ _).2 hln] at hdel
          cases hdel
        obtain ⟨v, hv⟩ := Option.ne_none_iff_exists'.1 hlookne
        have hmem := alookup_mem hv
        obtain ⟨r, hr, hrepr⟩ := hrep _ hmem
        obtain ⟨rfl, rfl⟩ := HInj b 0 v r hrepr
        exact hmem
    have hpresent : ∀ x ∈ ireplicas H (m + 1) b,
        (alookup x st.bucket_map).isSome := by
      intro x hx
      obtain ⟨r, hr, rfl⟩ := mem_ireplicas.1 hx
      have := hall (H (replicaStr b 0), b) hb r hr
      rw [this]
      rfl
    have hchar := removeLoop_of_present hsorted hnd hsync hpresent hhnd
    have hst' : st' = ⟨eraseList st.keys (ireplicas H (m + 1) b),
        adeleteList st.bucket_map (ireplicas H (m + 1) b)⟩ := by
      have := hok.symm.trans hchar
      exact congrArg Prod.fst this
    subst hst'
    rw [eraseList_filter hsorted.nodup, adeleteList_filter hnd]
    have hnotb : ∀ e, e ∈ st.bucket_map →
        e.1 ∉ ireplicas H (m + 1) b → e.2 ≠ b := by
      intro e hem henot heb
      obtain ⟨r, hr, hrepr⟩ := hrep e hem
      exact henot (mem_ireplicas.2 ⟨r, hr, heb ▸ hrepr⟩)
    refine ⟨⟨List.Pairwise.sublist (List.filter_sublist _) hsorted,
      ((List.filter_sublist _).map Prod.fst).nodup hnd, ?_⟩, ?_, ?_⟩
    · apply Finset.ext
      intro a
      simp only [List.mem_toFinset, List.mem_filter, List.mem_map,
        decide_eq_true_eq]
      constructor
      · rintro ⟨hak, hanot⟩
        have : a ∈ st.bucket_map.map Prod.fst := by
          rw [← List.mem_toFinset, ← hfs, List.mem_toFinset]
          exact hak
        obtain ⟨e, hem, rfl⟩ := List.mem_map.1 this
        exact ⟨e, ⟨hem, hanot⟩, rfl⟩
      · rintro ⟨e, ⟨hem, hanot⟩, rfl⟩
        refine ⟨?_, hanot⟩
        rw [← List.mem_toFinset, hfs, List.mem_toFinset]
        exact List.mem_map_of_mem Prod.fst hem
    · intro e he
      exact hrep e (List.mem_filter.1 he).1
    · intro e he r hr
      obtain ⟨hem, henot⟩ := List.mem_filter.1 he
      rw [decide_eq_true_eq] at henot
      have heb : e.2 ≠ b := hnotb e hem henot
      have hnotin : H (replicaStr e.2 r) ∉ ireplicas H (m + 1) b := by
        intro hin
        obtain ⟨r', hr', hf⟩ := mem_ireplicas.1 hin
        exact heb (HInj e.2 r b r' hf).1
      rw [alookup_filter_not_mem hnotin]
      exact hall e hem r hr

theorem ringInv_of_sinv {H : String → Nat} {n : Nat} {st : HashRing}
    (HInj : HashCollisionFree H) (hsinv : ringSInv H n st) :
    ringInv n st := by
  obtain ⟨⟨hsorted, hnd, hfs⟩, hrep, hall⟩ := hsinv
  refine ⟨hsorted, hfs, fun b hb => ?_⟩
  obtain ⟨e₀, he₀, he₀b⟩ := List.mem_map.1 hb
  have hset : ((st.bucket_map.filter
        (fun e => decide (e.2 = b))).map Prod.fst).toFinset
      = (Finset.range n).image (fun r => H (replicaStr b r)) := by
    apply Finset.ext
    intro a
    simp only [List.mem_toFinset, List.mem_map, List.mem_filter,
      Finset.mem_image, Finset.mem_range, decide_eq_true_eq]
    constructor
    · rintro ⟨e, ⟨hem, heb⟩, rfl⟩
      obtain ⟨r, hr, hrepr⟩ := hrep e hem
      exact ⟨r, hr, by rw [hrepr, heb]⟩
    · rintro ⟨r, hr, rfl⟩
      have hl := hall e₀ he₀ r hr
      rw [he₀b] at hl
      exact ⟨(H (replicaStr b r), b), ⟨alookup_mem hl, rfl⟩, rfl⟩
  rw [hset,
    Finset.card_image_of_injOn (fun r _ r' _ hf => (HInj b r b r' hf).2),
    Finset.card_range]

theorem sinv_empty (H : String → Nat) (n : Nat) :
    ringSInv H n ⟨[], []⟩ := by
  refine ⟨⟨List.sorted_nil, List.nodup_nil, rfl⟩, ?_, ?_⟩ <;>
    intro e he <;> cases he

theorem sinv_reachable {H : String → Nat} {n : Nat} {st : HashRing}
    (HInj : HashCollisionFree H) (h : Reachable H n st) :
    ringSInv H n st := by
  induction h with
  | init => exact sinv_empty H n
  | add b st₀ st₁ hr hok ih => exact sinv_add ih hok
  | remove b st₀ st₁ hr hok ih => exact sinv_remove HInj ih hok

theorem initLoop_reachable {H : String → Nat} {n : Nat} {st st' : HashRing} :
    ∀ {bs : List String}, Reachable H n st →
    initLoop H n st bs = (st', none) → Reachable H n st' := by
  intro bs
  induction bs generalizing st with
  | nil =>
    intro h0 h
    rw [initLoop] at h
    have h1 : st = st' := congrArg Prod.fst h
    rw [← h1]
    exact h0
  | cons b bs ih =>
    intro h0 h
    rw [initLoop] at h
    cases hadd : add_bucket H n b st with
    | mk st₁ oe =>
      rw [hadd] at h
      cases oe with
      | none => exact ih (Reachable.add b st st₁ h0 hadd) h
      | some e => exact absurd (congrArg Prod.snd h) (by simp)

/-! ### Claim C6 -/

/-- C6: under the spec's no-collision assumption on the hash, every ring
reachable by successful `add_bucket`/`remove_bucket` calls — including any
ring built by the constructor from a bucket list — satisfies the stated
invariant: keys sorted strictly ascending with no duplicates, the key set
equal to the dict's domain, and every bucket present mapped to by exactly
`replicas` distinct hash values. -/
theorem c6_ring_invariant (H : String → Nat) (replicas : Nat)
    (HInj : HashCollisionFree H) :
    (∀ st, Reachable H replicas st → ringInv replicas st) ∧
    (∀ buckets st, initRing H replicas buckets = (st, none) →
      ringInv replicas st) :=
  ⟨fun _ h => ringInv_of_sinv HInj (sinv_reachable HInj h),
    fun _ _ h => ringInv_of_sinv HInj (sinv_reachable HInj
      (initLoop_reachable Reachable.init h))⟩

/-- Witness for C6: the injective stand-in hash `strVal` is collision
free, and the ring the constructor builds from the bucket list `["a"]`
with one replica satisfies the invariant. -/
theorem c6_ring_invariant_witness :
    ringInv 1 (initRing strVal 1 ["a"]).1 :=
  (c6_ring_invariant strVal 1 strVal_collisionFree).2 ["a"]
    (initRing strVal 1 ["a"]).1 (Prod.ext rfl (by decide))
